import Mathlib

/-!
# Verification of goraygen's introspection and canonicalization engine

A shallow embedding, in Lean 4, of the import/alias resolver (`import.go`),
the type canonicalizer, identifier sanitizer and declaration scanners
(`utils.go`) of the `goraygen` code generator, together with proofs of the
behavioural properties stated in the specification.

Go maps are modelled as association lists whose keys are inserted only when
absent (which is exactly how the program uses them); `fmt.Sprintf` decimal
formatting is modelled by an explicit decimal renderer.  All definitions are
fuel-structural so that every function evaluates by `decide`/`rfl` on concrete
inputs.
-/

/-! ## Decimal rendering of natural numbers

Models Go's `fmt.Sprintf("%d", i)` (for the non-negative values the program
uses).  Written with explicit fuel (`fuel > n` always holds at every call
site) so that the definition is structurally recursive.
-/

/-- One decimal digit as a character, `d < 10` at every use. -/
def decDigitChar (d : Nat) : Char := Char.ofNat (48 + d)

/-- Fuel-driven decimal digit accumulator: digits of `n` (most significant
first) prepended to `acc`.  The fuel is an upper bound on the number of
digits; `fuel ≥ n + 1` always suffices. -/
def decDigitsGo : Nat → Nat → List Char → List Char
  | 0, _, acc => acc
  | fuel + 1, n, acc =>
    if n < 10 then decDigitChar n :: acc
    else decDigitsGo fuel (n / 10) (decDigitChar (n % 10) :: acc)

/-- Decimal rendering of a natural number, modelling Go's `%d` verb. -/
def decRepr (n : Nat) : String := ⟨decDigitsGo (n + 1) n []⟩

/-- Parsing a digit list back to a number (left inverse used to prove that
`decRepr` is injective). -/
def decParse (l : List Char) : Nat :=
  l.foldl (fun acc c => acc * 10 + (c.toNat - 48)) 0

theorem decDigitsGo_acc (fuel n : Nat) (acc : List Char) :
    decDigitsGo fuel n acc = decDigitsGo fuel n [] ++ acc := by
  induction fuel generalizing n acc with
  | zero => simp [decDigitsGo]
  | succ fuel ih =>
    by_cases h : n < 10
    · simp [decDigitsGo, h]
    · rw [decDigitsGo, if_neg h, decDigitsGo, if_neg h,
        ih (n / 10) (decDigitChar (n % 10) :: acc), ih (n / 10) [decDigitChar (n % 10)]]
      simp

theorem decDigitsGo_fuel (f₁ f₂ n : Nat) (h₁ : n < f₁) (h₂ : n < f₂) :
    decDigitsGo f₁ n [] = decDigitsGo f₂ n [] := by
  induction f₁ generalizing f₂ n with
  | zero => omega
  | succ f₁ ih =>
    cases f₂ with
    | zero => omega
    | succ f₂ =>
      by_cases h : n < 10
      · simp [decDigitsGo, h]
      · rw [decDigitsGo, if_neg h, decDigitsGo, if_neg h,
          decDigitsGo_acc f₁, decDigitsGo_acc f₂]
        have hn : 0 < n := by omega
        have : n / 10 < n := Nat.div_lt_self hn (by omega)
        rw [ih f₂ (n / 10) (by omega) (by omega)]

theorem decParse_digit (d : Nat) (h : d < 10) : (decDigitChar d).toNat - 48 = d := by
  interval_cases d <;> decide

theorem decParse_decDigitsGo (n : Nat) :
    ∀ fuel, n < fuel → decParse (decDigitsGo fuel n []) = n := by
  induction n using Nat.strong_induction_on with
  | _ n ih =>
    intro fuel hfuel
    cases fuel with
    | zero => omega
    | succ fuel =>
      by_cases h : n < 10
      · simp [decDigitsGo, h, decParse, List.foldl, decParse_digit n h]
      · rw [decDigitsGo, if_neg h, decDigitsGo_acc]
        have hn : 0 < n := by omega
        have hdiv : n / 10 < n := Nat.div_lt_self hn (by omega)
        have hfe : decDigitsGo fuel (n / 10) [] = decDigitsGo (n / 10 + 1) (n / 10) [] := by
          apply decDigitsGo_fuel <;> omega
        rw [hfe]
        unfold decParse
        rw [List.foldl_append]
        have hrec := ih (n / 10) hdiv (n / 10 + 1) (by omega)
        unfold decParse at hrec
        rw [hrec]
        simp [List.foldl, decParse_digit (n % 10) (Nat.mod_lt n (by omega))]
        omega

theorem decParse_decRepr (n : Nat) : decParse (decRepr n).data = n :=
  decParse_decDigitsGo n (n + 1) (Nat.lt_succ_self n)

theorem decRepr_injective : Function.Injective decRepr := by
  intro a b h
  have := decParse_decRepr a
  rw [h, decParse_decRepr b] at this
  omega

/-! ## The import/alias resolver (`src/import.go`)

`ImportStore` owns two Go maps, modelled as association lists:
`importPath2pkgName` (import path → chosen alias) and `pkgName2importExpr`
(alias → literal import declaration text).  The program only ever inserts a
key that is absent, so cons-insertion is an exact model of Go map update;
map iteration order (which Go leaves unspecified) is treated separately, see
`DumpObservable` below.
-/

structure ImportStore where
  importPath2pkgName : List (String × String)
  pkgName2importExpr : List (String × String)
deriving Repr, DecidableEq

def NewImportStore : ImportStore := ⟨[], []⟩

/-- `getPackageName` (src/import.go): the substring after the last `/`, or
the whole path when there is no separator. -/
def getPackageName (importPath : String) : String :=
  ⟨(importPath.data.reverse.takeWhile (fun c => c ≠ '/')).reverse⟩

/-- The collision loop of `AddImport`: starting from candidate index `i`
(the source starts at 2), return `pkgName ++ i` for the first `i` whose
candidate is not yet a key of the alias map.  The fuel is one more than the
number of entries of the map, which always suffices (pigeonhole, proved in
`findFreeAlias_spec`). -/
def findFreeAlias (m : List (String × String)) (base : String) : Nat → Nat → String
  | 0, i => base ++ decRepr i
  | fuel + 1, i =>
    let cand := base ++ decRepr i
    match m.lookup cand with
    | none => cand
    | some _ => findFreeAlias m base fuel (i + 1)

/-- `AddImport` (src/import.go): returns the alias to use for `importPath`
in generated code, together with the updated store. -/
def AddImport (store : ImportStore) (importPath : String) : String × ImportStore :=
  match store.importPath2pkgName.lookup importPath with
  | some pkgName => (pkgName, store)
  | none =>
    let pkgName := getPackageName importPath
    match store.pkgName2importExpr.lookup pkgName with
    | none =>
      (pkgName,
        { importPath2pkgName := (importPath, pkgName) :: store.importPath2pkgName
          pkgName2importExpr :=
            (pkgName, "\"" ++ importPath ++ "\"") :: store.pkgName2importExpr })
    | some _ =>
      let newPkgName :=
        findFreeAlias store.pkgName2importExpr pkgName
          (store.pkgName2importExpr.length + 1) 2
      (newPkgName,
        { importPath2pkgName := (importPath, newPkgName) :: store.importPath2pkgName
          pkgName2importExpr :=
            (newPkgName, "\"" ++ importPath ++ "\" " ++ newPkgName) ::
              store.pkgName2importExpr })

/-- `DumpImportExprs` (src/import.go): the values of the alias map, i.e. the
recorded import declarations.  The list order shown here is one particular
enumeration; Go's own enumeration order is unspecified (`DumpObservable`). -/
def DumpImportExprs (store : ImportStore) : List String :=
  store.pkgName2importExpr.map Prod.snd

/-- Go's built-in `map` iteration (`gmap.Values`) enumerates values in an
order that the language spec leaves undefined and that the runtime varies
between executions; an output list is observable exactly when it is some
permutation of the stored declaration texts. -/
def DumpObservable (store : ImportStore) (out : List String) : Prop :=
  out.Perm (store.pkgName2importExpr.map Prod.snd)

/-- Running a whole sequence of `AddImport` calls, discarding the returned
aliases. -/
def addAll (store : ImportStore) (paths : List String) : ImportStore :=
  paths.foldl (fun s p => (AddImport s p).2) store

/-! ## Association-list lookup facts -/

theorem lookup_eq_none_iff (l : List (String × String)) (k : String) :
    l.lookup k = none ↔ k ∉ l.map Prod.fst := by
  induction l with
  | nil => simp
  | cons hd tl ih =>
    obtain ⟨k', v⟩ := hd
    by_cases h : k = k'
    · subst h; simp [List.lookup_cons]
    · simp only [List.lookup_cons, beq_false_of_ne h, List.map_cons, List.mem_cons]
      simp [ih, h]

theorem mem_of_lookup_eq_some {l : List (String × String)} {k v : String}
    (h : l.lookup k = some v) : (k, v) ∈ l := by
  induction l with
  | nil => simp [List.lookup] at h
  | cons hd tl ih =>
    obtain ⟨k', v'⟩ := hd
    by_cases hk : k = k'
    · subst hk
      simp [List.lookup_cons] at h
      simp [h]
    · simp only [List.lookup_cons, beq_false_of_ne hk] at h
      exact List.mem_cons_of_mem _ (ih h)

theorem mem_keys_of_lookup_eq_some {l : List (String × String)} {k v : String}
    (h : l.lookup k = some v) : k ∈ l.map Prod.fst := by
  by_contra hmem
  rw [← lookup_eq_none_iff] at hmem
  rw [h] at hmem
  exact Option.noConfusion hmem

/-! ## C9: adding an already-present path is a no-op -/

/-- C9: calling `AddImport` with an import path already present in the store
returns the stored alias and leaves the store (hence any subsequent
`DumpImportExprs`) unchanged. -/
theorem addImport_present_frame (s : ImportStore) (p a : String)
    (h : s.importPath2pkgName.lookup p = some a) :
    AddImport s p = (a, s) ∧ DumpImportExprs (AddImport s p).2 = DumpImportExprs s := by
  have : AddImport s p = (a, s) := by
    unfold AddImport
    rw [h]
  exact ⟨this, by rw [this]⟩

/-- Witness for C9 at a concrete store. -/
theorem addImport_present_frame_witness :
    AddImport (AddImport NewImportStore "fmt").2 "fmt" = ("fmt", (AddImport NewImportStore "fmt").2) ∧
      DumpImportExprs (AddImport (AddImport NewImportStore "fmt").2 "fmt").2
        = DumpImportExprs (AddImport NewImportStore "fmt").2 :=
  addImport_present_frame (AddImport NewImportStore "fmt").2 "fmt" "fmt" (by decide)

/-! ## C3: `AddImport` is idempotent under arbitrary interleaving -/

theorem addImport_lookup_self (s : ImportStore) (p : String) :
    (AddImport s p).2.importPath2pkgName.lookup p = some (AddImport s p).1 := by
  cases h : s.importPath2pkgName.lookup p with
  | some a => simp only [AddImport, h]
  | none =>
    cases h2 : s.pkgName2importExpr.lookup (getPackageName p) with
    | none => simp [AddImport, h, h2, List.lookup_cons]
    | some e => simp [AddImport, h, h2, List.lookup_cons]

theorem addImport_preserves_lookup (s : ImportStore) (p a q : String)
    (h : s.importPath2pkgName.lookup p = some a) :
    (AddImport s q).2.importPath2pkgName.lookup p = some a := by
  cases hq : s.importPath2pkgName.lookup q with
  | some b => simp only [AddImport, hq]; exact h
  | none =>
    have hpq : p ≠ q := by
      intro heq
      rw [heq, hq] at h
      exact Option.noConfusion h
    cases h2 : s.pkgName2importExpr.lookup (getPackageName q) with
    | none => simp only [AddImport, hq, h2, List.lookup_cons, beq_false_of_ne hpq]; exact h
    | some e => simp only [AddImport, hq, h2, List.lookup_cons, beq_false_of_ne hpq]; exact h

theorem addAll_preserves_lookup (qs : List String) (s : ImportStore) (p a : String)
    (h : s.importPath2pkgName.lookup p = some a) :
    (addAll s qs).importPath2pkgName.lookup p = some a := by
  induction qs generalizing s with
  | nil => simpa [addAll]
  | cons q qs ih =>
    simp only [addAll, List.foldl_cons]
    exact ih (AddImport s q).2 (addImport_preserves_lookup s p a q h)

/-- C3: `AddImport` is idempotent — a second call with the same import path,
after any interleaved `AddImport` calls for arbitrary (possibly colliding)
paths, returns the alias chosen by the first call. -/
theorem addImport_idempotent (s : ImportStore) (p : String) (qs : List String) :
    (AddImport (addAll (AddImport s p).2 qs) p).1 = (AddImport s p).1 := by
  have h1 := addImport_lookup_self s p
  have h2 := addAll_preserves_lookup qs (AddImport s p).2 p (AddImport s p).1 h1
  generalize ha : (AddImport s p).1 = a at h2 ⊢
  generalize hS : addAll (AddImport s p).2 qs = S at h2 ⊢
  simp only [AddImport, h2]

/-! ## C2: aliases are never shared between distinct import paths -/

theorem addAll_nil (s : ImportStore) : addAll s [] = s := rfl

theorem addAll_cons (s : ImportStore) (q : String) (qs : List String) :
    addAll s (q :: qs) = addAll (AddImport s q).2 qs := rfl

theorem string_append_right_injective (s : String) :
    Function.Injective (fun t => s ++ t) := by
  intro a b h
  have hd : (s ++ a).data = (s ++ b).data := congrArg String.data h
  simp only [String.data_append] at hd
  exact String.ext (List.append_cancel_left hd)

theorem candidate_injective (base : String) :
    Function.Injective (fun j : Nat => base ++ decRepr j) :=
  fun _ _ h => decRepr_injective (string_append_right_injective base h)

/-- Pigeonhole: among `m.length + 1` successive candidate aliases at least
one is not a key of `m`. -/
theorem exists_free_candidate (m : List (String × String)) (base : String) (i : Nat) :
    ∃ j, i ≤ j ∧ j < i + (m.length + 1) ∧ m.lookup (base ++ decRepr j) = none := by
  by_contra hcon
  push_neg at hcon
  have hmem : ∀ k < m.length + 1, (base ++ decRepr (i + k)) ∈ m.map Prod.fst := by
    intro k hk
    have h1 := hcon (i + k) (by omega) (by omega)
    cases hl : m.lookup (base ++ decRepr (i + k)) with
    | none => exact absurd hl h1
    | some v => exact mem_keys_of_lookup_eq_some hl
  have hinj : Function.Injective (fun k : Nat => base ++ decRepr (i + k)) := by
    intro a b h
    have := candidate_injective base h
    omega
  have hnodup : ((List.range (m.length + 1)).map
      (fun k => base ++ decRepr (i + k))).Nodup :=
    List.Nodup.map hinj (List.nodup_range _)
  have hsub : ((List.range (m.length + 1)).map (fun k => base ++ decRepr (i + k)))
      ⊆ m.map Prod.fst := by
    intro x hx
    simp only [List.mem_map, List.mem_range] at hx
    obtain ⟨k, hk, rfl⟩ := hx
    exact hmem k hk
  have hle : ((List.range (m.length + 1)).map
      (fun k => base ++ decRepr (i + k))).length ≤ (m.map Prod.fst).length := by
    calc ((List.range (m.length + 1)).map (fun k => base ++ decRepr (i + k))).length
        = ((List.range (m.length + 1)).map
            (fun k => base ++ decRepr (i + k))).toFinset.card :=
          (List.toFinset_card_of_nodup hnodup).symm
      _ ≤ (m.map Prod.fst).toFinset.card := by
          apply Finset.card_le_card
          intro x hx
          simp only [List.mem_toFinset] at hx ⊢
          exact hsub hx
      _ ≤ (m.map Prod.fst).length := (m.map Prod.fst).toFinset_card_le
  simp only [List.length_map, List.length_range] at hle
  omega

/-- The collision loop returns the first unused candidate, provided a free
candidate exists within the fuel window. -/
theorem findFreeAlias_spec (m : List (String × String)) (base : String) :
    ∀ fuel i, (∃ j, i ≤ j ∧ j < i + fuel ∧ m.lookup (base ++ decRepr j) = none) →
      ∃ j, i ≤ j ∧ findFreeAlias m base fuel i = base ++ decRepr j ∧
        m.lookup (base ++ decRepr j) = none ∧
        ∀ k, i ≤ k → k < j → m.lookup (base ++ decRepr k) ≠ none := by
  intro fuel
  induction fuel with
  | zero =>
    intro i h
    obtain ⟨j, h1, h2, _⟩ := h
    omega
  | succ fuel ih =>
    intro i hex
    cases hl : m.lookup (base ++ decRepr i) with
    | none =>
      refine ⟨i, le_refl i, ?_, hl, fun k hk1 hk2 => absurd hk2 (by omega)⟩
      simp [findFreeAlias, hl]
    | some v =>
      obtain ⟨j, hj1, hj2, hj3⟩ := hex
      have hji : j ≠ i := by
        intro he
        rw [he, hl] at hj3
        exact Option.noConfusion hj3
      obtain ⟨j', hj'1, hj'2, hj'3, hj'4⟩ := ih (i + 1) ⟨j, by omega, by omega, hj3⟩
      refine ⟨j', by omega, ?_, hj'3, ?_⟩
      · simpa [findFreeAlias, hl] using hj'2
      · intro k hk1 hk2
        by_cases hki : k = i
        · subst hki
          rw [hl]
          exact fun h => Option.noConfusion h
        · exact hj'4 k (by omega) hk2

theorem findFreeAlias_first_free (m : List (String × String)) (base : String) :
    ∃ j, 2 ≤ j ∧ findFreeAlias m base (m.length + 1) 2 = base ++ decRepr j ∧
      m.lookup (base ++ decRepr j) = none ∧
      ∀ k, 2 ≤ k → k < j → m.lookup (base ++ decRepr k) ≠ none :=
  findFreeAlias_spec m base (m.length + 1) 2 (exists_free_candidate m base 2)

theorem findFreeAlias_fresh (m : List (String × String)) (base : String) :
    m.lookup (findFreeAlias m base (m.length + 1) 2) = none := by
  obtain ⟨j, _, heq, hfree, _⟩ := findFreeAlias_first_free m base
  rw [heq]
  exact hfree

/-- The store invariant maintained by `AddImport`: path keys are distinct,
chosen aliases are distinct, every chosen alias is a key of the declaration
map, and the two maps have the same size. -/
def StoreInv (s : ImportStore) : Prop :=
  (s.importPath2pkgName.map Prod.fst).Nodup ∧
  (s.importPath2pkgName.map Prod.snd).Nodup ∧
  (∀ a ∈ s.importPath2pkgName.map Prod.snd, a ∈ s.pkgName2importExpr.map Prod.fst) ∧
  s.pkgName2importExpr.length = s.importPath2pkgName.length

theorem storeInv_new : StoreInv NewImportStore := by
  refine ⟨?_, ?_, ?_, rfl⟩ <;> simp [NewImportStore]

theorem storeInv_addImport (s : ImportStore) (p : String) (h : StoreInv s) :
    StoreInv (AddImport s p).2 := by
  obtain ⟨h1, h2, h3, h4⟩ := h
  cases hq : s.importPath2pkgName.lookup p with
  | some a => simp only [AddImport, hq]; exact ⟨h1, h2, h3, h4⟩
  | none =>
    have hpnotin : p ∉ s.importPath2pkgName.map Prod.fst := (lookup_eq_none_iff _ _).mp hq
    cases h2' : s.pkgName2importExpr.lookup (getPackageName p) with
    | none =>
      have hfresh : getPackageName p ∉ s.pkgName2importExpr.map Prod.fst :=
        (lookup_eq_none_iff _ _).mp h2'
      have hfreshv : getPackageName p ∉ s.importPath2pkgName.map Prod.snd :=
        fun hin => hfresh (h3 _ hin)
      simp only [AddImport, hq, h2']
      refine ⟨?_, ?_, ?_, ?_⟩
      · rw [List.map_cons]
        exact List.nodup_cons.mpr ⟨hpnotin, h1⟩
      · rw [List.map_cons]
        exact List.nodup_cons.mpr ⟨hfreshv, h2⟩
      · intro a ha
        simp only [List.map_cons, List.mem_cons] at ha ⊢
        rcases ha with ha | ha
        · exact Or.inl ha
        · exact Or.inr (h3 _ ha)
      · simpa using h4
    | some e =>
      have hfresh : findFreeAlias s.pkgName2importExpr (getPackageName p)
          (s.pkgName2importExpr.length + 1) 2 ∉ s.pkgName2importExpr.map Prod.fst :=
        (lookup_eq_none_iff _ _).mp (findFreeAlias_fresh _ _)
      have hfreshv : findFreeAlias s.pkgName2importExpr (getPackageName p)
          (s.pkgName2importExpr.length + 1) 2 ∉ s.importPath2pkgName.map Prod.snd :=
        fun hin => hfresh (h3 _ hin)
      simp only [AddImport, hq, h2']
      refine ⟨?_, ?_, ?_, ?_⟩
      · rw [List.map_cons]
        exact List.nodup_cons.mpr ⟨hpnotin, h1⟩
      · rw [List.map_cons]
        exact List.nodup_cons.mpr ⟨hfreshv, h2⟩
      · intro a ha
        simp only [List.map_cons, List.mem_cons] at ha ⊢
        rcases ha with ha | ha
        · exact Or.inl ha
        · exact Or.inr (h3 _ ha)
      · simpa using h4

theorem storeInv_addAll (ps : List String) (s : ImportStore) (h : StoreInv s) :
    StoreInv (addAll s ps) := by
  induction ps generalizing s with
  | nil => exact h
  | cons q qs ih => rw [addAll_cons]; exact ih _ (storeInv_addImport s q h)

theorem nodup_map_snd_inj {l : List (String × String)}
    (h : (l.map Prod.snd).Nodup) {p₁ p₂ a : String}
    (h₁ : (p₁, a) ∈ l) (h₂ : (p₂, a) ∈ l) : p₁ = p₂ := by
  have he := List.inj_on_of_nodup_map h h₁ h₂ rfl
  exact congrArg Prod.fst he

/-- C2: within one store, `AddImport` never binds one alias to two
distinct import paths — after any sequence of calls the alias assignment is injective
— and on a name collision the first unused candidate among
`defaultAlias2, defaultAlias3, …` is bound (recorded in "path + explicit
alias" form) and returned. -/
theorem addImport_alias_unique (ps : List String) (s : ImportStore) (p : String)
    (hnone : s.importPath2pkgName.lookup p = none)
    (hclash : s.pkgName2importExpr.lookup (getPackageName p) ≠ none) :
    (∀ p₁ p₂ a : String,
        (p₁, a) ∈ (addAll NewImportStore ps).importPath2pkgName →
        (p₂, a) ∈ (addAll NewImportStore ps).importPath2pkgName → p₁ = p₂)
    ∧ ∃ j, 2 ≤ j ∧
        (AddImport s p).1 = getPackageName p ++ decRepr j ∧
        s.pkgName2importExpr.lookup (getPackageName p ++ decRepr j) = none ∧
        (∀ k, 2 ≤ k → k < j →
          s.pkgName2importExpr.lookup (getPackageName p ++ decRepr k) ≠ none) ∧
        (AddImport s p).2.pkgName2importExpr.lookup (getPackageName p ++ decRepr j)
          = some ("\"" ++ p ++ "\" " ++ (getPackageName p ++ decRepr j)) := by
  constructor
  · intro p₁ p₂ a h₁ h₂
    have hinv := storeInv_addAll ps NewImportStore storeInv_new
    exact nodup_map_snd_inj hinv.2.1 h₁ h₂
  · cases h2 : s.pkgName2importExpr.lookup (getPackageName p) with
    | none => exact absurd h2 hclash
    | some e =>
      obtain ⟨j, hj2, heq, hfree, hmin⟩ :=
        findFreeAlias_first_free s.pkgName2importExpr (getPackageName p)
      refine ⟨j, hj2, ?_, hfree, hmin, ?_⟩
      · simp only [AddImport, hnone, h2]
        exact heq
      · simp only [AddImport, hnone, h2]
        rw [← heq]
        simp [List.lookup_cons]

/-- Witness for C2: the two paths `a/fmt` and `b/fmt` deliberately collide
on the default alias `fmt`. -/
theorem addImport_alias_unique_witness :
    ((AddImport NewImportStore "a/fmt").2.importPath2pkgName.lookup "b/fmt" = none ∧
      (AddImport NewImportStore "a/fmt").2.pkgName2importExpr.lookup
        (getPackageName "b/fmt") ≠ none) ∧
    (∀ p₁ p₂ a : String,
        (p₁, a) ∈ (addAll NewImportStore ["a/fmt", "b/fmt"]).importPath2pkgName →
        (p₂, a) ∈ (addAll NewImportStore ["a/fmt", "b/fmt"]).importPath2pkgName → p₁ = p₂)
    ∧ ∃ j, 2 ≤ j ∧
        (AddImport (AddImport NewImportStore "a/fmt").2 "b/fmt").1
          = getPackageName "b/fmt" ++ decRepr j ∧
        (AddImport NewImportStore "a/fmt").2.pkgName2importExpr.lookup
          (getPackageName "b/fmt" ++ decRepr j) = none ∧
        (∀ k, 2 ≤ k → k < j →
          (AddImport NewImportStore "a/fmt").2.pkgName2importExpr.lookup
            (getPackageName "b/fmt" ++ decRepr k) ≠ none) ∧
        (AddImport (AddImport NewImportStore "a/fmt").2 "b/fmt").2.pkgName2importExpr.lookup
          (getPackageName "b/fmt" ++ decRepr j)
          = some ("\"" ++ "b/fmt" ++ "\" " ++ (getPackageName "b/fmt" ++ decRepr j)) :=
  ⟨⟨by decide, by decide⟩,
    addImport_alias_unique ["a/fmt", "b/fmt"] (AddImport NewImportStore "a/fmt").2 "b/fmt"
      (by decide) (by decide)⟩

/-! ## C6: one import declaration per distinct path -/

theorem addImport_keys_toFinset (s : ImportStore) (q : String) :
    ((AddImport s q).2.importPath2pkgName.map Prod.fst).toFinset
      = insert q (s.importPath2pkgName.map Prod.fst).toFinset := by
  cases hq : s.importPath2pkgName.lookup q with
  | some a =>
    simp only [AddImport, hq]
    have hmem : q ∈ (s.importPath2pkgName.map Prod.fst).toFinset := by
      rw [List.mem_toFinset]
      exact mem_keys_of_lookup_eq_some hq
    exact (Finset.insert_eq_self.mpr hmem).symm
  | none =>
    cases h2 : s.pkgName2importExpr.lookup (getPackageName q) with
    | none => simp [AddImport, hq, h2, List.toFinset_cons]
    | some e => simp [AddImport, hq, h2, List.toFinset_cons]

theorem addAll_keys_toFinset (ps : List String) (s : ImportStore) :
    ((addAll s ps).importPath2pkgName.map Prod.fst).toFinset
      = (s.importPath2pkgName.map Prod.fst).toFinset ∪ ps.toFinset := by
  induction ps generalizing s with
  | nil => simp [addAll_nil]
  | cons q qs ih =>
    rw [addAll_cons, ih, addImport_keys_toFinset, List.toFinset_cons,
      Finset.insert_union, Finset.union_insert]

/-- C6: after any sequence of `AddImport` calls on one store,
`DumpImportExprs` holds exactly one import declaration per distinct import
path ever added, whatever the order and multiplicity of the calls. -/
theorem dumpImportExprs_one_per_path (ps : List String) :
    (DumpImportExprs (addAll NewImportStore ps)).length = ps.toFinset.card := by
  obtain ⟨h1, h2, h3, h4⟩ := storeInv_addAll ps NewImportStore storeInv_new
  have hkeys := addAll_keys_toFinset ps NewImportStore
  have hnew : ((NewImportStore.importPath2pkgName).map Prod.fst).toFinset = ∅ := rfl
  rw [hnew, Finset.empty_union] at hkeys
  calc (DumpImportExprs (addAll NewImportStore ps)).length
      = (addAll NewImportStore ps).pkgName2importExpr.length := by
        simp [DumpImportExprs]
    _ = (addAll NewImportStore ps).importPath2pkgName.length := h4
    _ = ((addAll NewImportStore ps).importPath2pkgName.map Prod.fst).length := by simp
    _ = ((addAll NewImportStore ps).importPath2pkgName.map Prod.fst).toFinset.card :=
        (List.toFinset_card_of_nodup h1).symm
    _ = ps.toFinset.card := by rw [hkeys]

/-! ## C7: `DumpImportExprs` ordering across runs -/

/-- C7 is refuted by the code: `DumpImportExprs` enumerates a Go built-in
map, whose iteration order the language leaves unspecified and the runtime
varies between executions.  For the store holding `fmt` and `strings`, both
orders of the two declarations are observable outputs. -/
theorem dumpImportExprs_order_unspecified :
    DumpObservable (addAll NewImportStore ["fmt", "strings"]) ["\"fmt\"", "\"strings\""] ∧
    DumpObservable (addAll NewImportStore ["fmt", "strings"]) ["\"strings\"", "\"fmt\""] ∧
    (["\"fmt\"", "\"strings\""] : List String) ≠ ["\"strings\"", "\"fmt\""] := by
  refine ⟨?_, ?_, by decide⟩ <;>
    · unfold DumpObservable
      decide

/-! ## The type canonicalizer (`getTypeName`, src/utils.go)

`go/types` type values (the oracle) are modelled by the inductive `GoType`,
one constructor per shape that `getTypeName` distinguishes.  A named type
carries its name and the import path of its defining package (`none` for
predeclared types, whose `Pkg()` is nil); the structural fallbacks
(function signatures, anonymous structs/interfaces, unknown shapes) carry
the oracle's own textual rendering, used verbatim by the source. -/

inductive ChanDir where
  | sendRecv
  | sendOnly
  | recvOnly
deriving Repr, DecidableEq

inductive GoType where
  | named (name : String) (pkgPath : Option String)
  | basic (name : String) (isUnsafePointer : Bool)
  | pointer (elem : GoType)
  | slice (elem : GoType)
  | array (len : Nat) (elem : GoType)
  | map (key elem : GoType)
  | chan (dir : ChanDir) (elem : GoType)
  | signature (rendering : String)
  | structLit (rendering : String)
  | interfaceLit (rendering : String)
  | otherType (rendering : String)
deriving Repr, DecidableEq

/-- `getTypeName` (src/utils.go): canonical textual rendering of a type.
Named types defined outside `currentPkgPath` are qualified with the alias
returned by `AddImport`; the store threads through the recursion. -/
def getTypeName : GoType → String → ImportStore → String × ImportStore
  | .named name pkgPath, currentPkgPath, store =>
    match pkgPath with
    | none => (name, store)
    | some packagePath =>
      if packagePath = currentPkgPath then (name, store)
      else
        let (pkgName, store) := AddImport store packagePath
        (pkgName ++ "." ++ name, store)
  | .basic name isUnsafePtr, _, store =>
    if isUnsafePtr then
      let (pkgName, store) := AddImport store "unsafe"
      (pkgName ++ "." ++ name, store)
    else (name, store)
  | .pointer elem, currentPkgPath, store =>
    let (elemTypeName, store) := getTypeName elem currentPkgPath store
    ("*" ++ elemTypeName, store)
  | .slice elem, currentPkgPath, store =>
    let (elemTypeName, store) := getTypeName elem currentPkgPath store
    ("[]" ++ elemTypeName, store)
  | .array len elem, currentPkgPath, store =>
    let (elemTypeName, store) := getTypeName elem currentPkgPath store
    ("[" ++ decRepr len ++ "]" ++ elemTypeName, store)
  | .map key elem, currentPkgPath, store =>
    let (keyTypeName, store) := getTypeName key currentPkgPath store
    let (elemTypeName, store) := getTypeName elem currentPkgPath store
    ("map[" ++ keyTypeName ++ "]" ++ elemTypeName, store)
  | .chan dir elem, currentPkgPath, store =>
    let (elemTypeName, store) := getTypeName elem currentPkgPath store
    let dirStr := match dir with
      | .sendRecv => "chan "
      | .sendOnly => "chan<- "
      | .recvOnly => "<-chan "
    (dirStr ++ elemTypeName, store)
  | .signature rendering, _, store => (rendering, store)
  | .structLit rendering, _, store => (rendering, store)
  | .interfaceLit rendering, _, store => (rendering, store)
  | .otherType rendering, _, store => (rendering, store)

/-- C1: a named type defined in the module being scanned is rendered as its
bare name; a named type defined elsewhere is rendered exactly as
`alias ++ "." ++ name`, where `alias` is precisely what `AddImport` returns
for the defining package path (with the same store update). -/
theorem getTypeName_named (name currentPkgPath packagePath : String)
    (store : ImportStore) (h : packagePath ≠ currentPkgPath) :
    getTypeName (GoType.named name (some currentPkgPath)) currentPkgPath store
      = (name, store)
    ∧ getTypeName (GoType.named name (some packagePath)) currentPkgPath store
      = ((AddImport store packagePath).1 ++ "." ++ name,
          (AddImport store packagePath).2) := by
  constructor
  · simp [getTypeName]
  · simp [getTypeName, h]

/-- Witness for C1: `bytes.Buffer` seen from module `example.com/mypkg`. -/
theorem getTypeName_named_witness :
    ("bytes" : String) ≠ "example.com/mypkg" ∧
    (getTypeName (GoType.named "Buffer" (some "example.com/mypkg"))
        "example.com/mypkg" NewImportStore = ("Buffer", NewImportStore)
      ∧ getTypeName (GoType.named "Buffer" (some "bytes"))
          "example.com/mypkg" NewImportStore
        = ((AddImport NewImportStore "bytes").1 ++ "." ++ "Buffer",
            (AddImport NewImportStore "bytes").2)) :=
  ⟨by decide,
    getTypeName_named "Buffer" "example.com/mypkg" "bytes" NewImportStore (by decide)⟩

/-! ## The identifier sanitizer (`IdentifiableTypeName`, src/utils.go)

The three regular expressions of the source are simple enough to model as
direct left-to-right scanners:
* `arrayRegex = \[(\d+)\]` replaced by `arr${1}Of`;
* `mapRegex = map\[([^\]]+)\](.*)` replaced by `map${1}To${2}` (RE2: the
  first group is the maximal run of non-`]` characters, the second group is
  greedy `.*`, which stops before a newline);
* `cleanRegex = [^a-zA-Z0-9_]` replaced by the empty string, i.e. a filter.
Each scanner consumes at least one character per step, so fuel equal to the
input length makes the definitions structurally recursive without changing
their value. -/

/-- Character class of Go's `[a-zA-Z0-9_]` (all ASCII). -/
def isIdentChar (c : Char) : Bool := c.isAlpha || c.isDigit || c = '_'

/-- `strings.ReplaceAll`: replace every non-overlapping leftmost occurrence
of `pat` (never empty at any call site), continuing after each
replacement. -/
def replaceAllGo (pat repl : List Char) : Nat → List Char → List Char
  | 0, s => s
  | _ + 1, [] => []
  | fuel + 1, c :: cs =>
    if pat.isPrefixOf (c :: cs) then
      repl ++ replaceAllGo pat repl fuel ((c :: cs).drop pat.length)
    else c :: replaceAllGo pat repl fuel cs

/-- `arrayRegex.ReplaceAllString(s, "arr${1}Of")`: at each `[` followed by
one or more digits and a `]`, substitute; otherwise advance one
character. -/
def arrayReplaceGo : Nat → List Char → List Char
  | 0, s => s
  | _ + 1, [] => []
  | fuel + 1, c :: cs =>
    if c = '[' then
      match cs.dropWhile Char.isDigit, cs.takeWhile Char.isDigit with
      | ']' :: rest, d :: ds =>
        "arr".data ++ (d :: ds) ++ "Of".data ++ arrayReplaceGo fuel rest
      | _, _ => c :: arrayReplaceGo fuel cs
    else c :: arrayReplaceGo fuel cs

/-- `mapRegex.ReplaceAllString(s, "map${1}To${2}")`: at each occurrence of
`map[` followed by a non-empty run of non-`]` characters, a `]`, and the
rest of the line, substitute; otherwise advance one character. -/
def mapReplaceGo : Nat → List Char → List Char
  | 0, s => s
  | _ + 1, [] => []
  | fuel + 1, c :: cs =>
    if ("map[".data).isPrefixOf (c :: cs) then
      match ((c :: cs).drop 4).dropWhile (fun x => x ≠ ']'),
            ((c :: cs).drop 4).takeWhile (fun x => x ≠ ']') with
      | ']' :: rest2, g1h :: g1t =>
        "map".data ++ (g1h :: g1t) ++ "To".data ++ rest2.takeWhile (fun x => x ≠ '\n')
          ++ mapReplaceGo fuel (rest2.dropWhile (fun x => x ≠ '\n'))
      | _, _ => c :: mapReplaceGo fuel cs
    else c :: mapReplaceGo fuel cs

/-- The transformation chain of `IdentifiableTypeName` (src/utils.go), on
character lists, in source order. -/
def identifiableCore (s0 : List Char) : List Char :=
  let s1 := replaceAllGo "*".data "pointerOf".data s0.length s0
  let s2 := replaceAllGo "[]".data "sliceOf".data s1.length s1
  let s3 := arrayReplaceGo s2.length s2
  let s4 := mapReplaceGo s3.length s3
  let s5 := replaceAllGo "chan<-".data "sendChanOf".data s4.length s4
  let s6 := replaceAllGo "<-chan".data "recvChanOf".data s5.length s5
  let s7 := replaceAllGo "chan ".data "chanOf".data s6.length s6
  let s8 := if ("func(".data).isPrefixOf s7 then
      let sa := replaceAllGo "func(".data "funcWith".data s7.length s7
      replaceAllGo ")".data "".data sa.length sa
    else s7
  let s9 := replaceAllGo "interface\x7b\x7d".data "any".data s8.length s8
  let s10 := replaceAllGo " ".data "_".data s9.length s9
  let s11 := replaceAllGo ".".data "_".data s10.length s10
  s11.filter isIdentChar

/-- `IdentifiableTypeName` (src/utils.go): canonical type string made
identifier-safe. -/
def IdentifiableTypeName (typ : String) : String := ⟨identifiableCore typ.data⟩

/-! ## C4: the sanitizer is idempotent -/

theorem mem_of_isPrefixOf {pat s : List Char} (h : pat.isPrefixOf s = true)
    {x : Char} (hx : x ∈ pat) : x ∈ s :=
  (List.isPrefixOf_iff_prefix.mp h).subset hx

theorem replaceAllGo_id (pat repl : List Char) (x : Char) (hx : x ∈ pat)
    (hxi : isIdentChar x = false) :
    ∀ fuel s, (∀ c ∈ s, isIdentChar c = true) → replaceAllGo pat repl fuel s = s := by
  intro fuel
  induction fuel with
  | zero => intro s _; rfl
  | succ fuel ih =>
    intro s hs
    match s with
    | [] => rfl
    | c :: cs =>
      have hnp : ¬ pat.isPrefixOf (c :: cs) = true := by
        intro hcon
        have := hs x (mem_of_isPrefixOf hcon hx)
        rw [hxi] at this
        exact Bool.noConfusion this
      rw [replaceAllGo, if_neg hnp]
      congr 1
      exact ih cs fun c' hc' => hs c' (List.mem_cons_of_mem _ hc')

theorem arrayReplaceGo_id :
    ∀ fuel s, (∀ c ∈ s, isIdentChar c = true) → arrayReplaceGo fuel s = s := by
  intro fuel
  induction fuel with
  | zero => intro s _; rfl
  | succ fuel ih =>
    intro s hs
    match s with
    | [] => rfl
    | c :: cs =>
      have hc : ¬ c = '[' := by
        intro he
        have := hs c (List.mem_cons_self c cs)
        rw [he] at this
        exact absurd this (by decide)
      rw [arrayReplaceGo, if_neg hc]
      congr 1
      exact ih cs fun c' hc' => hs c' (List.mem_cons_of_mem _ hc')

theorem mapReplaceGo_id :
    ∀ fuel s, (∀ c ∈ s, isIdentChar c = true) → mapReplaceGo fuel s = s := by
  intro fuel
  induction fuel with
  | zero => intro s _; rfl
  | succ fuel ih =>
    intro s hs
    match s with
    | [] => rfl
    | c :: cs =>
      have hnp : ¬ ("map[".data).isPrefixOf (c :: cs) = true := by
        intro hcon
        have := hs '[' (mem_of_isPrefixOf hcon (by decide))
        exact absurd this (by decide)
      rw [mapReplaceGo, if_neg hnp]
      congr 1
      exact ih cs fun c' hc' => hs c' (List.mem_cons_of_mem _ hc')

theorem identifiableCore_all_ident (s : List Char) :
    ∀ c ∈ identifiableCore s, isIdentChar c = true := by
  intro c hc
  unfold identifiableCore at hc
  exact (List.mem_filter.mp hc).2

theorem identifiableCore_id (s : List Char)
    (hs : ∀ c ∈ s, isIdentChar c = true) : identifiableCore s = s := by
  unfold identifiableCore
  dsimp only
  rw [replaceAllGo_id "*".data _ '*' (by decide) (by decide) _ s hs,
    replaceAllGo_id "[]".data _ '[' (by decide) (by decide) _ s hs,
    arrayReplaceGo_id _ s hs,
    mapReplaceGo_id _ s hs,
    replaceAllGo_id "chan<-".data _ '<' (by decide) (by decide) _ s hs,
    replaceAllGo_id "<-chan".data _ '<' (by decide) (by decide) _ s hs,
    replaceAllGo_id "chan ".data _ ' ' (by decide) (by decide) _ s hs]
  have hfn : ¬ ("func(".data).isPrefixOf s = true := by
    intro hcon
    have := hs '(' (mem_of_isPrefixOf hcon (by decide))
    exact absurd this (by decide)
  rw [if_neg hfn,
    replaceAllGo_id "interface\x7b\x7d".data _ '\x7b' (by decide) (by decide) _ s hs,
    replaceAllGo_id " ".data _ ' ' (by decide) (by decide) _ s hs,
    replaceAllGo_id ".".data _ '.' (by decide) (by decide) _ s hs]
  exact List.filter_eq_self.mpr hs

/-- C4: the identifier sanitizer is idempotent — its output contains only
`[a-zA-Z0-9_]` characters, and every transformation step fixes such
strings. -/
theorem identifiableTypeName_idempotent (s : String) :
    IdentifiableTypeName (IdentifiableTypeName s) = IdentifiableTypeName s := by
  have hb : ∀ t : String, IdentifiableTypeName t = String.mk (identifiableCore t.data) :=
    fun _ => rfl
  have ha : ∀ l : List Char, (String.mk l).data = l := fun _ => rfl
  rw [hb (IdentifiableTypeName s), hb s, ha]
  exact congrArg String.mk (identifiableCore_id _ (identifiableCore_all_ident s.data))

/-! ## C10: the sanitizer is not injective -/

/-- C10: two distinct canonical type strings can sanitize to the same
identifier fragment: `a.b` and `a_b` both yield `a_b`. -/
theorem identifiableTypeName_not_injective :
    IdentifiableTypeName "a.b" = IdentifiableTypeName "a_b" ∧
      ("a.b" : String) ≠ "a_b" := by
  constructor
  · have h1 : IdentifiableTypeName "a.b" = "a_b" := by rfl
    have h2 : IdentifiableTypeName "a_b" = "a_b" := by rfl
    rw [h1, h2]
  · decide

/-! ## The method scanner (`FindMethods`, src/utils.go)

The `go/types` oracle data that `FindMethods` consumes is modelled as
plain records: a package carries its import path and a symbol scope mapping
names to objects; an object of named type carries the list of its methods;
a method carries its exported flag, its signature (receiver, parameters,
results, variadic flag) and the doc text that `findFuncDoc` extracts for
it (the position-based comment lookup itself is oracle data here).  The
loop bodies of `FindMethods` are embedded exactly, threading the import
store through every canonicalization. -/

structure GoVar where
  name : String
  ty : GoType
deriving Repr, DecidableEq

structure GoSignature where
  recv : GoType
  params : List GoVar
  results : List GoType
  variadic : Bool
deriving Repr, DecidableEq

structure GoFunc where
  name : String
  exported : Bool
  sig : GoSignature
  doc : String
deriving Repr, DecidableEq

structure GoNamedType where
  name : String
  methods : List GoFunc
deriving Repr, DecidableEq

inductive GoObject where
  | namedObj (t : GoNamedType)
  | otherObj
deriving Repr, DecidableEq

structure GoPackageTypes where
  path : String
  scope : List (String × GoObject)
deriving Repr, DecidableEq

structure Param where
  name : String
  ty : String
deriving Repr, DecidableEq

structure MethodResult where
  ty : String
deriving Repr, DecidableEq

structure Method where
  receiverType : String
  name : String
  params : List Param
  results : List MethodResult
  isVariadic : Bool
  doc : String
deriving Repr, DecidableEq

/-- `strings.TrimPrefix`: drop `pre` when it is a prefix, else return the
string unchanged. -/
def trimPrefixStr (s pre : String) : String :=
  if pre.data.isPrefixOf s.data then ⟨s.data.drop pre.data.length⟩ else s

/-- The receiver rendering of `FindMethods`: `*Name` for a pointer to a
named type, `Name` for a named type, empty otherwise. -/
def receiverTypeString : GoType → String
  | .pointer (.named n _) => "*" ++ n
  | .named n _ => n
  | _ => ""

/-- The parameter loop of `FindMethods`: `j` is the running index, `total`
the parameter count, `variadic` the signature's flag.  Unnamed parameters
get `arg{j}`; the last parameter of a variadic signature has its leading
`[]` stripped. -/
def paramsLoop (currentPkgPath : String) (total : Nat) (variadic : Bool) :
    Nat → List GoVar → ImportStore → List Param × ImportStore
  | _, [], store => ([], store)
  | j, v :: rest, store =>
    let paramName := if v.name = "" then "arg" ++ decRepr j else v.name
    let (typeName0, store) := getTypeName v.ty currentPkgPath store
    let typeName :=
      if j = total - 1 ∧ variadic = true then trimPrefixStr typeName0 "[]" else typeName0
    let (restParams, store) := paramsLoop currentPkgPath total variadic (j + 1) rest store
    (⟨paramName, typeName⟩ :: restParams, store)

/-- The result loop of `FindMethods`. -/
def resultsLoop (currentPkgPath : String) :
    List GoType → ImportStore → List MethodResult × ImportStore
  | [], store => ([], store)
  | r :: rest, store =>
    let (typeName, store) := getTypeName r currentPkgPath store
    let (restResults, store) := resultsLoop currentPkgPath rest store
    (⟨typeName⟩ :: restResults, store)

/-- The method loop of `FindMethods`: skips unexported methods, otherwise
builds one `Method` record per method, threading the store. -/
def methodsLoop (currentPkgPath : String) :
    List GoFunc → ImportStore → List Method × ImportStore
  | [], store => ([], store)
  | f :: fs, store =>
    if f.exported = true then
      let (params, store) :=
        paramsLoop currentPkgPath f.sig.params.length f.sig.variadic 0 f.sig.params store
      let (results, store) := resultsLoop currentPkgPath f.sig.results store
      let m : Method :=
        ⟨receiverTypeString f.sig.recv, f.name, params, results, f.sig.variadic, f.doc⟩
      let (rest, store) := methodsLoop currentPkgPath fs store
      (m :: rest, store)
    else methodsLoop currentPkgPath fs store

/-- `FindMethods` (src/utils.go): all exported methods of the named type
bound to `structName` in the package scope; empty when the name is absent
or not a named type. -/
def FindMethods (pkg : GoPackageTypes) (structName : String) (store : ImportStore) :
    List Method × ImportStore :=
  match pkg.scope.lookup structName with
  | none => ([], store)
  | some GoObject.otherObj => ([], store)
  | some (GoObject.namedObj t) => methodsLoop pkg.path t.methods store

/-! ## C5: variadic methods record the element type -/

theorem getTypeName_slice (T : GoType) (cur : String) (store : ImportStore) :
    getTypeName (GoType.slice T) cur store
      = ("[]" ++ (getTypeName T cur store).1, (getTypeName T cur store).2) := by
  cases h : getTypeName T cur store
  simp [getTypeName, h]

theorem trimPrefix_slice (x : String) : trimPrefixStr ("[]" ++ x) "[]" = x := by
  unfold trimPrefixStr
  rw [String.data_append]
  rw [if_pos (List.isPrefixOf_iff_prefix.mpr ⟨x.data, rfl⟩)]
  rw [List.drop_left]

theorem paramsLoop_nil (cur : String) (total : Nat) (var : Bool) (j : Nat)
    (store : ImportStore) : paramsLoop cur total var j [] store = ([], store) := rfl

theorem paramsLoop_cons (cur : String) (total : Nat) (var : Bool) (j : Nat)
    (v : GoVar) (rest : List GoVar) (store : ImportStore) :
    paramsLoop cur total var j (v :: rest) store
      = ((⟨if v.name = "" then "arg" ++ decRepr j else v.name,
            if j = total - 1 ∧ var = true
            then trimPrefixStr (getTypeName v.ty cur store).1 "[]"
            else (getTypeName v.ty cur store).1⟩ : Param)
           :: (paramsLoop cur total var (j + 1) rest (getTypeName v.ty cur store).2).1,
         (paramsLoop cur total var (j + 1) rest (getTypeName v.ty cur store).2).2) := by
  cases h1 : getTypeName v.ty cur store
  cases h2 : paramsLoop cur total var (j + 1) rest (getTypeName v.ty cur store).2
  rw [h1] at h2
  simp [paramsLoop, h1, h2]

theorem paramsLoop_cons_ne_nil (cur : String) (total : Nat) (var : Bool) (j : Nat)
    (v : GoVar) (rest : List GoVar) (store : ImportStore) :
    (paramsLoop cur total var j (v :: rest) store).1 ≠ [] := by
  rw [paramsLoop_cons]
  exact List.cons_ne_nil _ _

/-- The last parameter of a variadic signature whose final formal parameter
has slice type `[]T` is recorded with the canonicalization of `T` itself:
the leading `[]` produced by `getTypeName` on the slice is stripped. -/
theorem paramsLoop_variadic_last (cur : String) (nm : String) (T : GoType) :
    ∀ (ps : List GoVar) (j : Nat) (store : ImportStore),
      ((paramsLoop cur (j + ps.length + 1) true j
          (ps ++ [⟨nm, GoType.slice T⟩]) store).1.map Param.ty).getLast?
        = some (getTypeName T cur
            (paramsLoop cur (j + ps.length + 1) true j ps store).2).1 := by
  intro ps
  induction ps with
  | nil =>
    intro j store
    rw [List.nil_append, List.length_nil, Nat.add_zero, paramsLoop_cons]
    have hcond : j = (j + 1) - 1 ∧ true = true := ⟨by omega, rfl⟩
    rw [if_pos hcond, paramsLoop_nil, paramsLoop_nil]
    show (trimPrefixStr (getTypeName (GoType.slice T) cur store).1 "[]" :: List.map _ _).getLast?
      = some (getTypeName T cur store).1
    rw [getTypeName_slice]
    simp [trimPrefix_slice]
  | cons v ps ih =>
    intro j store
    rw [List.cons_append, List.length_cons, paramsLoop_cons, paramsLoop_cons]
    have harith : j + (ps.length + 1) + 1 = (j + 1) + ps.length + 1 := by omega
    rw [harith]
    have hih := ih (j + 1) (getTypeName v.ty cur store).2
    cases htail : (paramsLoop cur ((j + 1) + ps.length + 1) true (j + 1)
        (ps ++ [⟨nm, GoType.slice T⟩]) (getTypeName v.ty cur store).2).1 with
    | nil =>
      exfalso
      cases ps with
      | nil => exact paramsLoop_cons_ne_nil _ _ _ _ _ _ _ htail
      | cons w ws => exact paramsLoop_cons_ne_nil _ _ _ _ _ _ _ htail
    | cons q qs =>
      rw [htail] at hih
      simp only [List.map_cons, List.getLast?_cons_cons]
      simpa using hih

theorem methodsLoop_nil (cur : String) (store : ImportStore) :
    methodsLoop cur [] store = ([], store) := rfl

theorem methodsLoop_cons_exported (cur : String) (f : GoFunc) (fs : List GoFunc)
    (store : ImportStore) (h : f.exported = true) :
    methodsLoop cur (f :: fs) store
      = ((⟨receiverTypeString f.sig.recv, f.name,
            (paramsLoop cur f.sig.params.length f.sig.variadic 0 f.sig.params store).1,
            (resultsLoop cur f.sig.results
              (paramsLoop cur f.sig.params.length f.sig.variadic 0 f.sig.params store).2).1,
            f.sig.variadic, f.doc⟩ : Method)
          :: (methodsLoop cur fs
                (resultsLoop cur f.sig.results
                  (paramsLoop cur f.sig.params.length f.sig.variadic 0
                    f.sig.params store).2).2).1,
        (methodsLoop cur fs
          (resultsLoop cur f.sig.results
            (paramsLoop cur f.sig.params.length f.sig.variadic 0
              f.sig.params store).2).2).2) := by
  cases h1 : paramsLoop cur f.sig.params.length f.sig.variadic 0 f.sig.params store
  cases h2 : resultsLoop cur f.sig.results
    (paramsLoop cur f.sig.params.length f.sig.variadic 0 f.sig.params store).2
  rw [h1] at h2
  cases h3 : methodsLoop cur fs
    (resultsLoop cur f.sig.results
      (paramsLoop cur f.sig.params.length f.sig.variadic 0 f.sig.params store).2).2
  rw [h1, h2] at h3
  simp [methodsLoop, h, h1, h2, h3]

theorem methodsLoop_cons_skip (cur : String) (f : GoFunc) (fs : List GoFunc)
    (store : ImportStore) (h : f.exported = false) :
    methodsLoop cur (f :: fs) store = methodsLoop cur fs store := by
  simp [methodsLoop, h]

theorem methodsLoop_variadic (cur : String) (fs : List GoFunc) :
    ∀ (store : ImportStore) (f : GoFunc), f ∈ fs → f.exported = true →
      f.sig.variadic = true →
      ∀ (ps : List GoVar) (nm : String) (T : GoType),
        f.sig.params = ps ++ [⟨nm, GoType.slice T⟩] →
        ∃ m ∈ (methodsLoop cur fs store).1, m.name = f.name ∧ m.isVariadic = true ∧
          ∃ s : ImportStore,
            (m.params.map Param.ty).getLast? = some (getTypeName T cur s).1 := by
  induction fs with
  | nil => intro store f hf; exact absurd hf (List.not_mem_nil f)
  | cons g gs ih =>
    intro store f hf hexp hvar ps nm T hps
    rcases List.mem_cons.mp hf with heq | hf'
    · subst heq
      rw [methodsLoop_cons_exported cur f gs store hexp]
      have hlast := paramsLoop_variadic_last cur nm T ps 0 store
      rw [Nat.zero_add] at hlast
      refine ⟨_, List.mem_cons_self _ _, rfl, hvar,
        (paramsLoop cur (ps.length + 1) true 0 ps store).2, ?_⟩
      show (List.map Param.ty
          (paramsLoop cur f.sig.params.length f.sig.variadic 0 f.sig.params store).1).getLast?
        = some (getTypeName T cur (paramsLoop cur (ps.length + 1) true 0 ps store).2).1
      rw [hps, hvar]
      have hlen : (ps ++ [(⟨nm, GoType.slice T⟩ : GoVar)]).length = ps.length + 1 := by
        simp
      rw [hlen]
      exact hlast
    · by_cases hg : g.exported = true
      · rw [methodsLoop_cons_exported cur g gs store hg]
        obtain ⟨m, hm, hrest⟩ := ih _ f hf' hexp hvar ps nm T hps
        exact ⟨m, List.mem_cons_of_mem _ hm, hrest⟩
      · rw [methodsLoop_cons_skip cur g gs store (by simpa using hg)]
        exact ih store f hf' hexp hvar ps nm T hps

/-- C5: an exported method whose signature is variadic with final formal
parameter of type `[]T` is recorded by `FindMethods` with its variadic flag
set and the final recorded parameter type equal to the canonicalization of
`T` — the canonicalization of `[]T` with the leading slice marker stripped,
not the canonicalization of `[]T` itself. -/
theorem findMethods_variadic (pkg : GoPackageTypes) (structName : String)
    (store : ImportStore) (t : GoNamedType) (f : GoFunc) (ps : List GoVar)
    (nm : String) (T : GoType)
    (hlook : pkg.scope.lookup structName = some (GoObject.namedObj t))
    (hf : f ∈ t.methods) (hexp : f.exported = true) (hvar : f.sig.variadic = true)
    (hps : f.sig.params = ps ++ [⟨nm, GoType.slice T⟩]) :
    ∃ m ∈ (FindMethods pkg structName store).1, m.name = f.name ∧
      m.isVariadic = true ∧
      ∃ s : ImportStore,
        (m.params.map Param.ty).getLast? = some (getTypeName T pkg.path s).1 ∧
        (getTypeName (GoType.slice T) pkg.path s).1
          = "[]" ++ (getTypeName T pkg.path s).1 := by
  have hred : FindMethods pkg structName store = methodsLoop pkg.path t.methods store := by
    simp [FindMethods, hlook]
  rw [hred]
  obtain ⟨m, hm, hname, hvari, s, hlast⟩ :=
    methodsLoop_variadic pkg.path t.methods store f hf hexp hvar ps nm T hps
  exact ⟨m, hm, hname, hvari, s, hlast, by rw [getTypeName_slice]⟩

/-- A concrete package for the C5 witness: one exported variadic method
`Sum(xs ...int)` on `*Tasks`. -/
def exVariadicMethod : GoFunc :=
  ⟨"Sum", true,
    ⟨GoType.pointer (GoType.named "Tasks" (some "example.com/mypkg")),
      [⟨"xs", GoType.slice (GoType.basic "int" false)⟩],
      [GoType.basic "int" false], true⟩, ""⟩

def exPkg : GoPackageTypes :=
  ⟨"example.com/mypkg", [("Tasks", GoObject.namedObj ⟨"Tasks", [exVariadicMethod]⟩)]⟩

/-- Witness for C5 at the concrete package `exPkg`. -/
theorem findMethods_variadic_witness :
    (exPkg.scope.lookup "Tasks"
        = some (GoObject.namedObj ⟨"Tasks", [exVariadicMethod]⟩) ∧
      exVariadicMethod ∈ [exVariadicMethod] ∧
      exVariadicMethod.exported = true ∧
      exVariadicMethod.sig.variadic = true ∧
      exVariadicMethod.sig.params
        = [] ++ [⟨"xs", GoType.slice (GoType.basic "int" false)⟩]) ∧
    ∃ m ∈ (FindMethods exPkg "Tasks" NewImportStore).1,
      m.name = exVariadicMethod.name ∧ m.isVariadic = true ∧
      ∃ s : ImportStore,
        (m.params.map Param.ty).getLast?
          = some (getTypeName (GoType.basic "int" false) exPkg.path s).1 ∧
        (getTypeName (GoType.slice (GoType.basic "int" false)) exPkg.path s).1
          = "[]" ++ (getTypeName (GoType.basic "int" false) exPkg.path s).1 :=
  ⟨⟨by decide, by decide, by decide, by decide, by decide⟩,
    findMethods_variadic exPkg "Tasks" NewImportStore ⟨"Tasks", [exVariadicMethod]⟩
      exVariadicMethod [] "xs" (GoType.basic "int" false)
      (by decide) (by decide) (by decide) (by decide) (by decide)⟩

/-! ## The declaration scanner (`FindStruct`, src/utils.go)

The `go/ast` syntax data is modelled as: a package holds files; a file
holds its top-level general declarations in source order; a declaration
carries its token kind, its optional doc-comment group (a list of raw
comment texts) and its spec list; a type spec carries the declared name
and the shape of its type expression.  `ast.Inspect` with the source's
early-exit closure amounts to a fold over the declarations that keeps the
first hit. -/

inductive TyExpr where
  | structType
  | interfaceType
  | otherType (rendering : String)
deriving Repr, DecidableEq

structure TypeSpec where
  name : String
  ty : TyExpr
deriving Repr, DecidableEq

inductive DeclSpec where
  | typeSpec (ts : TypeSpec)
  | otherSpec
deriving Repr, DecidableEq

inductive Tok where
  | typeTok
  | otherTok
deriving Repr, DecidableEq

structure GenDecl where
  tok : Tok
  doc : Option (List String)
  specs : List DeclSpec
deriving Repr, DecidableEq

structure GoFile where
  decls : List GenDecl
deriving Repr, DecidableEq

structure GoPackageSyntax where
  files : List GoFile
deriving Repr, DecidableEq

/-- The inner spec loop of `FindStruct`: the first `TypeSpec` whose type
expression is a struct literal. -/
def scanSpecs : List DeclSpec → Option TypeSpec
  | [] => none
  | DeclSpec.typeSpec ts :: rest =>
    match ts.ty with
    | TyExpr.structType => some ts
    | _ => scanSpecs rest
  | DeclSpec.otherSpec :: rest => scanSpecs rest

/-- The comment loop of `FindStruct`: at the first comment whose trimmed
text equals the marker, scan the declaration's specs; keep scanning the
remaining comments while nothing was found. -/
def scanComments (commentPatten : String) (specs : List DeclSpec) :
    List String → Option TypeSpec
  | [] => none
  | c :: rest =>
    if c.trim = commentPatten then
      match scanSpecs specs with
      | some ts => some ts
      | none => scanComments commentPatten specs rest
    else scanComments commentPatten specs rest

/-- One step of the `ast.Inspect` traversal of `FindStruct`: once a target
is found it is kept; otherwise a declaration is examined when it is a
`type` declaration carrying a doc group. -/
def inspectDecl (commentPatten : String) (acc : Option TypeSpec) (d : GenDecl) :
    Option TypeSpec :=
  match acc with
  | some ts => some ts
  | none =>
    if d.tok = Tok.typeTok then
      match d.doc with
      | some comments => scanComments commentPatten d.specs comments
      | none => none
    else none

/-- `FindStruct` (src/utils.go): the first struct type declaration whose
doc comment carries the marker text. -/
def FindStruct (pkg : GoPackageSyntax) (commentPatten : String) : Option TypeSpec :=
  pkg.files.foldl (fun acc file => file.decls.foldl (inspectDecl commentPatten) acc) none

/-- The declaration predicate the specification describes: a `type`
declaration whose doc group contains a comment whose trimmed text equals
the marker verbatim. -/
def declMatchesMarker (commentPatten : String) (d : GenDecl) : Bool :=
  d.tok = Tok.typeTok &&
    (match d.doc with
      | some comments => comments.any (fun c => c.trim = commentPatten)
      | none => false)

/-- Modelled from the spec's words: the first top-level type declaration
carrying the marker comment and declaring a plain struct, scanning files
and declarations in order. -/
def firstMarkedStruct (pkg : GoPackageSyntax) (commentPatten : String) :
    Option TypeSpec :=
  (pkg.files.flatMap GoFile.decls).findSome? fun d =>
    if declMatchesMarker commentPatten d then scanSpecs d.specs else none

/-! ## C8: first-match semantics of the declaration scanner -/

theorem scanSpecs_struct (specs : List DeclSpec) :
    ∀ ts, scanSpecs specs = some ts → ts.ty = TyExpr.structType := by
  induction specs with
  | nil => intro ts h; exact Option.noConfusion h
  | cons s rest ih =>
    intro ts h
    match s with
    | DeclSpec.otherSpec => exact ih ts h
    | DeclSpec.typeSpec t0 =>
      cases hty : t0.ty with
      | structType =>
        rw [scanSpecs, hty] at h
        cases h
        exact hty
      | interfaceType => rw [scanSpecs, hty] at h; exact ih ts h
      | otherType r => rw [scanSpecs, hty] at h; exact ih ts h

theorem scanComments_eq (pat : String) (specs : List DeclSpec) (cs : List String) :
    scanComments pat specs cs
      = if cs.any (fun c => c.trim = pat) then scanSpecs specs else none := by
  induction cs with
  | nil => rfl
  | cons c rest ih =>
    by_cases h : c.trim = pat
    · cases hs : scanSpecs specs with
      | some ts => simp [scanComments, h, hs]
      | none => simp [scanComments, h, hs, ih]
    · simp [scanComments, h, ih]

theorem inspectDecl_none (pat : String) (d : GenDecl) :
    inspectDecl pat none d
      = if declMatchesMarker pat d then scanSpecs d.specs else none := by
  unfold inspectDecl declMatchesMarker
  by_cases ht : d.tok = Tok.typeTok
  · cases hd : d.doc with
    | none => simp [ht, hd]
    | some comments => simp [ht, hd, scanComments_eq]
  · simp [ht]

theorem foldl_inspectDecl (pat : String) (ds : List GenDecl) :
    ∀ acc, ds.foldl (inspectDecl pat) acc
      = acc.or (ds.findSome? fun d =>
          if declMatchesMarker pat d then scanSpecs d.specs else none) := by
  induction ds with
  | nil => intro acc; cases acc <;> rfl
  | cons d ds ih =>
    intro acc
    cases acc with
    | some ts =>
      rw [List.foldl_cons]
      have hstep : inspectDecl pat (some ts) d = some ts := rfl
      rw [hstep, ih]
      rfl
    | none =>
      rw [List.foldl_cons, ih, inspectDecl_none]
      cases hf : (if declMatchesMarker pat d then scanSpecs d.specs else none) with
      | some ts => simp [List.findSome?_cons, hf]
      | none => simp [List.findSome?_cons, hf]

theorem foldl_files_inspect (pat : String) (files : List GoFile) :
    ∀ acc, files.foldl (fun acc file => file.decls.foldl (inspectDecl pat) acc) acc
      = acc.or ((files.flatMap GoFile.decls).findSome? fun d =>
          if declMatchesMarker pat d then scanSpecs d.specs else none) := by
  induction files with
  | nil => intro acc; cases acc <;> rfl
  | cons file files ih =>
    intro acc
    rw [List.foldl_cons, ih, foldl_inspectDecl, List.flatMap_cons, List.findSome?_append]
    exact Option.or_assoc

/-- C8: `FindStruct` returns exactly the first top-level type declaration
whose doc comment (trimmed) equals the marker verbatim and whose declared
shape is a plain struct; the result (when present) is a struct type spec;
and when no declaration carries the marker the scanner returns nothing,
not an error. -/
theorem findStruct_spec (pkg : GoPackageSyntax) (pat : String) :
    FindStruct pkg pat = firstMarkedStruct pkg pat
    ∧ (∀ ts, FindStruct pkg pat = some ts → ts.ty = TyExpr.structType)
    ∧ ((∀ d ∈ pkg.files.flatMap GoFile.decls, declMatchesMarker pat d = false) →
        FindStruct pkg pat = none) := by
  have heq : FindStruct pkg pat = firstMarkedStruct pkg pat := by
    unfold FindStruct firstMarkedStruct
    rw [foldl_files_inspect]
    rfl
  refine ⟨heq, ?_, ?_⟩
  · intro ts h
    rw [heq] at h
    unfold firstMarkedStruct at h
    obtain ⟨d, _, hd⟩ := List.exists_of_findSome?_eq_some h
    by_cases hm : declMatchesMarker pat d = true
    · rw [if_pos hm] at hd
      exact scanSpecs_struct d.specs ts hd
    · rw [if_neg hm] at hd
      exact Option.noConfusion hd
  · intro hall
    rw [heq]
    unfold firstMarkedStruct
    rw [List.findSome?_eq_none_iff]
    intro d hd
    rw [hall d hd]
    rfl

/-- A concrete two-file package for the C8 witness: the first file holds an
unmarked struct and a marked interface declaration, the second file holds
the marked struct declaration. -/
def exScanPkg : GoPackageSyntax :=
  ⟨[⟨[⟨Tok.typeTok, none, [DeclSpec.typeSpec ⟨"Plain", TyExpr.structType⟩]⟩,
      ⟨Tok.typeTok, some ["// raytasks"],
        [DeclSpec.typeSpec ⟨"Iface", TyExpr.interfaceType⟩]⟩]⟩,
    ⟨[⟨Tok.typeTok, some ["  // raytasks  "],
        [DeclSpec.typeSpec ⟨"Tasks", TyExpr.structType⟩]⟩]⟩]⟩

/-- Witness for C8 at the concrete package `exScanPkg`. -/
theorem findStruct_spec_witness :
    FindStruct exScanPkg "// raytasks" = firstMarkedStruct exScanPkg "// raytasks"
    ∧ (∀ ts, FindStruct exScanPkg "// raytasks" = some ts →
        ts.ty = TyExpr.structType)
    ∧ ((∀ d ∈ exScanPkg.files.flatMap GoFile.decls,
          declMatchesMarker "// raytasks" d = false) →
        FindStruct exScanPkg "// raytasks" = none) :=
  findStruct_spec exScanPkg "// raytasks"
